import Mathlib

/-!
Verification development for a browser BLE device inspector.

The repository has three verifiable cores, embedded shallowly below:
- the device-history cache (`DeviceHistoryService` in
  `device-history.service.ts`): a bounded, persisted list of previously
  connected devices with upsert, favorite toggle, removal, clear and a
  recent-N query that sorts the live list in place;
- the value codec in `DashboardComponent` (`dataViewToString` /
  `stringToArrayBuffer`): UTF-8 decode with printable-ASCII check and a
  hex-dump fallback, and UTF-8 encode;
- the connection teardown in `BluetoothService` (`disconnect` /
  `onDisconnected`).

JavaScript strings are modelled as lists of Unicode code points
(`List Nat`), byte buffers (`Uint8Array` / `ArrayBuffer`) as lists of
naturals below 256, and `Date` timestamps as naturals (milliseconds).
Mutation of the `BehaviorSubject`'s current array is modelled by explicit
state passing: `HistoryState.history` is the array object held by the
subject, and the `localStorage` writes and subject emissions performed by
each method are recorded in `saves` and `emits` (most recent first).
-/

set_option autoImplicit false

namespace BleApp

/-- Mirrors the `DeviceInfo` interface of `bluetooth.service.ts`, reduced to
the fields the history cache reads or stores: the host-assigned device `id` (the
upsert key), the display `name`, and the `lastSeen` timestamp. The remaining
fields (rssi, distanceCm, serviceUUIDs, the raw handle) are carried along
unchanged by the history code and are irrelevant to the claims. -/
structure DeviceInfo where
  id : String
  name : String
  lastSeen : Nat
deriving DecidableEq, Repr

/-- Mirrors `DeviceHistoryEntry` of `device-history.service.ts`. -/
structure DeviceHistoryEntry where
  deviceInfo : DeviceInfo
  isFavorite : Bool
  connectionCount : Nat
  lastConnected : Nat
deriving DecidableEq, Repr

/-- The observable state of `DeviceHistoryService`: the array currently held
by `historySubject`, plus the recorded effects: every `saveToStorage` call
(`saves`) and every `historySubject.next` call (`emits`), most recent
first. -/
structure HistoryState where
  history : List DeviceHistoryEntry
  saves : List (List DeviceHistoryEntry)
  emits : List (List DeviceHistoryEntry)
deriving DecidableEq, Repr

/-- Fixture strings used by the concrete scenarios and witnesses below. -/
def strA : String := "A"

/-- Fixture string. -/
def strB : String := "B"

/-- Fixture string. -/
def stra : String := "a"

/-- Fixture string. -/
def strb : String := "b"

/-- Fixture string. -/
def strZ : String := "Z"

/-- Fixture string. -/
def strSvc : String := "svc"

/-- Fixture string. -/
def strDev : String := "dev"

namespace DeviceHistoryService

/-- `private readonly MAX_HISTORY_SIZE = 50`. -/
def MAX_HISTORY_SIZE : Nat := 50

/-- The state after construction with no stored history (the
`loadFromStorage` branch where nothing is under the storage key). -/
def emptyState : HistoryState := ⟨[], [], []⟩

/-- The in-place update of the first entry whose id matches, realizing the
`findIndex` + indexed-assignment branch of `addDevice`:
`history[existingIndex].lastConnected = new Date();`
`history[existingIndex].connectionCount++;`
`history[existingIndex].deviceInfo = { ...deviceInfo };`
Entries before the first match, and everything after it, are untouched. -/
def updateExisting (info : DeviceInfo) (now : Nat) :
    List DeviceHistoryEntry → List DeviceHistoryEntry
  | [] => []
  | e :: rest =>
    if e.deviceInfo.id = info.id then
      { e with lastConnected := now, connectionCount := e.connectionCount + 1,
               deviceInfo := info } :: rest
    else
      e :: updateExisting info now rest

/-- `addDevice(deviceInfo)`. The `existingIndex >= 0` test of the source is
the Boolean `any` below (`findIndex` returns a nonnegative index exactly when
some entry matches); the matched branch updates that entry in place
(`updateExisting`), the other branch is `history.unshift(newEntry)`. The
trailing `if (history.length > MAX_HISTORY_SIZE) history.splice(MAX)` keeps
the first `MAX_HISTORY_SIZE` entries, i.e. `List.take`. Finally the method
calls `saveToStorage(history)` and `historySubject.next(history)`. `now` is
the value of `new Date()`. -/
def addDevice (info : DeviceInfo) (now : Nat) (st : HistoryState) :
    HistoryState :=
  let h1 :=
    if st.history.any (fun e => e.deviceInfo.id = info.id) then
      updateExisting info now st.history
    else
      ⟨info, false, 1, now⟩ :: st.history
  let h2 := h1.take MAX_HISTORY_SIZE
  ⟨h2, h2 :: st.saves, h2 :: st.emits⟩

/-- The in-place flip of the first entry whose id matches, realizing
`history[entryIndex].isFavorite = !history[entryIndex].isFavorite`. -/
def toggleAt (id : String) :
    List DeviceHistoryEntry → List DeviceHistoryEntry
  | [] => []
  | e :: rest =>
    if e.deviceInfo.id = id then
      { e with isFavorite := !e.isFavorite } :: rest
    else
      e :: toggleAt id rest

/-- `toggleFavorite(deviceId)`: when `findIndex` succeeds, flip that entry's
flag, save and emit; otherwise the method body does nothing. -/
def toggleFavorite (id : String) (st : HistoryState) : HistoryState :=
  if st.history.any (fun e => e.deviceInfo.id = id) then
    let h2 := toggleAt id st.history
    ⟨h2, h2 :: st.saves, h2 :: st.emits⟩
  else
    st

/-- `removeDevice(deviceId)`: filter unconditionally, then save and emit the
filtered list (even when nothing matched). -/
def removeDevice (id : String) (st : HistoryState) : HistoryState :=
  let h2 := st.history.filter (fun e => e.deviceInfo.id ≠ id)
  ⟨h2, h2 :: st.saves, h2 :: st.emits⟩

/-- `clearHistory()`: save and emit the empty list. -/
def clearHistory (st : HistoryState) : HistoryState :=
  ⟨[], [] :: st.saves, [] :: st.emits⟩

/-- `getFavorites()`: a pure filter of the current value. -/
def getFavorites (st : HistoryState) : List DeviceHistoryEntry :=
  st.history.filter (fun e => e.isFavorite)

/-- The comparator `(a, b) => b.lastConnected.getTime() - a.lastConnected.getTime()`
passed to `Array.prototype.sort`: `a` may come before `b` exactly when the
comparator is nonpositive, i.e. `b.lastConnected ≤ a.lastConnected`. -/
def recentLe (a b : DeviceHistoryEntry) : Bool :=
  decide (b.lastConnected ≤ a.lastConnected)

/-- `getRecentDevices(limit)`: `this.historySubject.value.sort(cmp).slice(0, limit)`.
`Array.prototype.sort` is a stable sort (ES2019) that mutates the receiver —
the very array held by `historySubject` — and returns it; `slice` then copies
the first `limit` elements. The function therefore returns both the sliced
result and the post-call service state, whose stored history is the sorted
array. No save and no emission happens. -/
def getRecentDevices (limit : Nat) (st : HistoryState) :
    List DeviceHistoryEntry × HistoryState :=
  let sorted := st.history.mergeSort recentLe
  (sorted.take limit, { st with history := sorted })

end DeviceHistoryService

/-- One public mutating call on `DeviceHistoryService`. -/
inductive HistoryOp where
  | add (info : DeviceInfo) (now : Nat)
  | toggle (id : String)
  | remove (id : String)
  | clear
deriving DecidableEq, Repr

namespace DeviceHistoryService

/-- Dispatch one call to the corresponding method. -/
def applyOp (st : HistoryState) : HistoryOp → HistoryState
  | .add info now => addDevice info now st
  | .toggle id => toggleFavorite id st
  | .remove id => removeDevice id st
  | .clear => clearHistory st

/-- The service state after a sequence of calls on a freshly constructed
service with empty storage. -/
def runOps (ops : List HistoryOp) : HistoryState :=
  ops.foldl applyOp emptyState

/-- The id projection of a history list: the per-entry device ids in stored
order. -/
def idsOf (h : List DeviceHistoryEntry) : List String :=
  h.map (fun e => e.deviceInfo.id)

/-- Specification-level id order, written from the spec's words (not from
the source) for the refinement claim about insertion order: ids are kept
most-recently-first-inserted first; adding an id already present leaves the
order unchanged (no re-promotion to the front), adding a new id puts it at
the front and truncates to the capacity cap; toggling a favorite does not
move anything; removal deletes the id; clearing empties the list. -/
def specStep (ids : List String) : HistoryOp → List String
  | .add info _ =>
    if info.id ∈ ids then ids else (info.id :: ids).take MAX_HISTORY_SIZE
  | .toggle _ => ids
  | .remove id => ids.filter (fun x => x ≠ id)
  | .clear => []

/-- Specification-level id order after a call sequence from empty. -/
def specIdOrder (ops : List HistoryOp) : List String :=
  ops.foldl specStep []

/-- The scenario of 51 `addDevice` calls with pairwise-distinct ids
(decimal strings of 0 through 50), oldest first, on an initially empty
service. -/
def scenario51 : HistoryState :=
  ((List.range 51).map (fun k => DeviceInfo.mk (toString k) (toString k) k)).foldl
    (fun st info => addDevice info info.lastSeen st) emptyState

/-- A concrete two-entry state whose stored order disagrees with the
lastConnected-descending order: the entry last connected at time 1 is stored
before the one last connected at time 2. -/
def demoUnsorted : HistoryState :=
  ⟨[⟨⟨stra, stra, 0⟩, false, 1, 1⟩, ⟨⟨strb, strb, 0⟩, false, 1, 2⟩], [], []⟩

/-- A one-entry fixture state holding the device with id `strA`. -/
def oneEntryA : HistoryState :=
  ⟨[⟨⟨strA, strA, 0⟩, false, 1, 0⟩], [], []⟩

/-- A two-entry fixture state: device `strB` in front of device `strA`. -/
def twoEntryBA : HistoryState :=
  ⟨[⟨⟨strB, strB, 0⟩, false, 1, 0⟩, ⟨⟨strA, strA, 0⟩, true, 2, 3⟩], [], []⟩

end DeviceHistoryService

namespace DashboardComponent

/-- The WHATWG UTF-8 decoder state machine run by
`new TextDecoder('utf-8').decode` in non-fatal mode, one byte at a time.
The state is the in-progress `codePoint` (`cp`), the number of continuation
bytes still `needed` (0 means between sequences), and the `lower`/`upper`
boundaries the next continuation byte must satisfy (tightened for lead
bytes 0xE0, 0xED, 0xF0 and 0xF4 to exclude overlong forms, surrogates and
code points beyond U+10FFFF). A malformed byte emits the replacement
character U+FFFD; an out-of-range continuation byte additionally gets
prepended to the stream and re-processed from the initial state, realized
here by inlining the initial-state dispatch; a truncated sequence at end of
stream emits a single U+FFFD. In non-fatal mode the decoder never throws,
so the `try/catch` around it in `dataViewToString` never takes its catch
path. -/
def utf8DecodeAux : Nat → Nat → Nat → Nat → List Nat → List Nat
  | 0, _, _, _, [] => []
  | _ + 1, _, _, _, [] => [0xFFFD]
  | 0, _, _, _, b :: rest =>
    if b ≤ 0x7F then
      b :: utf8DecodeAux 0 0 0x80 0xBF rest
    else if 0xC2 ≤ b ∧ b ≤ 0xDF then
      utf8DecodeAux 1 (b - 0xC0) 0x80 0xBF rest
    else if 0xE0 ≤ b ∧ b ≤ 0xEF then
      utf8DecodeAux 2 (b - 0xE0) (if b = 0xE0 then 0xA0 else 0x80)
        (if b = 0xED then 0x9F else 0xBF) rest
    else if 0xF0 ≤ b ∧ b ≤ 0xF4 then
      utf8DecodeAux 3 (b - 0xF0) (if b = 0xF0 then 0x90 else 0x80)
        (if b = 0xF4 then 0x8F else 0xBF) rest
    else
      0xFFFD :: utf8DecodeAux 0 0 0x80 0xBF rest
  | needed + 1, cp, lower, upper, b :: rest =>
    if lower ≤ b ∧ b ≤ upper then
      if needed = 0 then
        (cp * 64 + (b - 0x80)) :: utf8DecodeAux 0 0 0x80 0xBF rest
      else
        utf8DecodeAux needed (cp * 64 + (b - 0x80)) 0x80 0xBF rest
    else
      0xFFFD ::
        (if b ≤ 0x7F then
          b :: utf8DecodeAux 0 0 0x80 0xBF rest
        else if 0xC2 ≤ b ∧ b ≤ 0xDF then
          utf8DecodeAux 1 (b - 0xC0) 0x80 0xBF rest
        else if 0xE0 ≤ b ∧ b ≤ 0xEF then
          utf8DecodeAux 2 (b - 0xE0) (if b = 0xE0 then 0xA0 else 0x80)
            (if b = 0xED then 0x9F else 0xBF) rest
        else if 0xF0 ≤ b ∧ b ≤ 0xF4 then
          utf8DecodeAux 3 (b - 0xF0) (if b = 0xF0 then 0x90 else 0x80)
            (if b = 0xF4 then 0x8F else 0xBF) rest
        else
          0xFFFD :: utf8DecodeAux 0 0 0x80 0xBF rest)

/-- `decoder.decode(uint8Array)`: run the WHATWG UTF-8 state machine from
its initial state over the whole byte buffer, yielding the decoded code
points. -/
def utf8Decode (bs : List Nat) : List Nat :=
  utf8DecodeAux 0 0 0x80 0xBF bs

/-- The UTF-8 encoding of one code point, as performed per character by
`new TextEncoder().encode`. -/
def utf8EncodeChar (c : Nat) : List Nat :=
  if c < 0x80 then [c]
  else if c < 0x800 then [0xC0 + c / 64, 0x80 + c % 64]
  else if c < 0x10000 then
    [0xE0 + c / 4096, 0x80 + (c / 64) % 64, 0x80 + c % 64]
  else
    [0xF0 + c / 262144, 0x80 + (c / 4096) % 64, 0x80 + (c / 64) % 64,
      0x80 + c % 64]

/-- `stringToArrayBuffer(str)`: `new TextEncoder().encode(str).buffer`, the
concatenated UTF-8 encoding of the string's code points. -/
def stringToArrayBuffer (s : List Nat) : List Nat :=
  (s.map utf8EncodeChar).flatten

/-- The character class of the regex `/^[\x20-\x7E]*$/` used by
`dataViewToString`: printable ASCII. -/
def isPrintable (c : Nat) : Bool :=
  decide (0x20 ≤ c ∧ c ≤ 0x7E)

/-- One lowercase hex digit as a code point: what `Number.prototype.toString(16)`
produces for a value below 16 (decimal digits, then lowercase letters). -/
def hexDigit (n : Nat) : Nat :=
  if n < 10 then 48 + n else 87 + n

/-- One byte of the hex fallback: `b.toString(16).padStart(2, '0')` for a
byte value below 256 — two lowercase hex digits, given as their code
points. -/
def byteToHex (b : Nat) : List Nat :=
  [hexDigit (b / 16), hexDigit (b % 16)]

/-- `dataViewToString(dataView)`: decode the bytes as UTF-8; if the regex
`/^[\x20-\x7E]*$/` accepts the decoded text, return it, otherwise return
`Array.from(uint8Array).map(b => b.toString(16).padStart(2, '0')).join(' ')`
— the bytes as space-separated (code point 0x20) two-digit lowercase hex. -/
def dataViewToString (bytes : List Nat) : List Nat :=
  let text := utf8Decode bytes
  if text.all isPrintable then
    text
  else
    List.intercalate [0x20] (bytes.map byteToHex)

end DashboardComponent

namespace BluetoothService

/-- A discovered GATT service as held in `servicesSubject`, reduced to its
identifier; the claims only need the list to be clearable. -/
structure ServiceInfo where
  uuid : String
deriving DecidableEq, Repr

/-- The `BluetoothRemoteGATTServer` handle, reduced to its `connected`
flag — the only field the repository reads on it. -/
structure GattServer where
  connected : Bool
deriving DecidableEq, Repr

/-- The fields of `BluetoothService` that `disconnect` / `onDisconnected`
touch: the value of `connectionStatusSubject`, the value of
`servicesSubject`, and the private `server` and `currentDevice` handles
(the device modelled by its id). -/
structure BTState where
  connectionStatus : Bool
  services : List ServiceInfo
  server : Option GattServer
  currentDevice : Option String
deriving DecidableEq, Repr

/-- The body of the private `onDisconnected` handler (the `ngZone.run`
wrapper only re-enters Angular's zone): push `false` on the connection
status, push `[]` on the services, null out both handles. -/
def onDisconnected (st : BTState) : BTState :=
  { st with connectionStatus := false, services := [], server := none,
            currentDevice := none }

/-- `disconnect()`: `if (this.server && this.server.connected)` tear the
live session down via the host (`this.server.disconnect()`), whose JS-visible
state change arrives only later through the asynchronously fired
`gattserverdisconnected` observer, which runs `onDisconnected`; otherwise run
the same cleanup `onDisconnected(null)` synchronously. The live branch is
modelled as the identity on the synchronous state, since the host call
mutates no field of the service before the observer fires. -/
def disconnect (st : BTState) : BTState :=
  match st.server with
  | some srv => if srv.connected then st else onDisconnected st
  | none => onDisconnected st

end BluetoothService

namespace DeviceHistoryService

@[simp]
theorem idsOf_nil : idsOf [] = [] := rfl

@[simp]
theorem idsOf_cons (e : DeviceHistoryEntry) (rest : List DeviceHistoryEntry) :
    idsOf (e :: rest) = e.deviceInfo.id :: idsOf rest := rfl

theorem any_id_iff (h : List DeviceHistoryEntry) (id : String) :
    h.any (fun e => e.deviceInfo.id = id) = true ↔ id ∈ idsOf h := by
  rw [List.any_eq_true]
  constructor
  · rintro ⟨e, he, hd⟩
    rw [decide_eq_true_eq] at hd
    exact List.mem_map.mpr ⟨e, he, hd⟩
  · intro hm
    rcases List.mem_map.mp hm with ⟨e, he, hd⟩
    exact ⟨e, he, by rw [decide_eq_true_eq]; exact hd⟩

theorem length_updateExisting (info : DeviceInfo) (now : Nat)
    (h : List DeviceHistoryEntry) :
    (updateExisting info now h).length = h.length := by
  induction h with
  | nil => rfl
  | cons e rest ih => simp only [updateExisting]; split <;> simp [ih]

theorem idsOf_updateExisting (info : DeviceInfo) (now : Nat)
    (h : List DeviceHistoryEntry) :
    idsOf (updateExisting info now h) = idsOf h := by
  induction h with
  | nil => rfl
  | cons e rest ih =>
    simp only [updateExisting]
    split
    · rename_i hm; simp [hm]
    · simp [ih]

theorem updateExisting_append (info : DeviceInfo) (now : Nat)
    (pre : List DeviceHistoryEntry) (e : DeviceHistoryEntry)
    (post : List DeviceHistoryEntry)
    (hpre : ∀ x ∈ pre, x.deviceInfo.id ≠ info.id)
    (he : e.deviceInfo.id = info.id) :
    updateExisting info now (pre ++ e :: post) =
      pre ++ { e with lastConnected := now,
                      connectionCount := e.connectionCount + 1,
                      deviceInfo := info } :: post := by
  induction pre with
  | nil => simp [updateExisting, he]
  | cons x xs ih =>
    have hx : x.deviceInfo.id ≠ info.id := hpre x (by simp)
    simp only [List.cons_append, updateExisting, hx, if_false, List.cons.injEq,
      true_and]
    exact ih (fun y hy => hpre y (by simp [hy]))

theorem idsOf_toggleAt (id : String) (h : List DeviceHistoryEntry) :
    idsOf (toggleAt id h) = idsOf h := by
  induction h with
  | nil => rfl
  | cons e rest ih =>
    simp only [toggleAt]
    split <;> simp [ih]

theorem toggleAt_toggleAt (id : String) (h : List DeviceHistoryEntry) :
    toggleAt id (toggleAt id h) = h := by
  induction h with
  | nil => rfl
  | cons e rest ih =>
    by_cases hm : e.deviceInfo.id = id
    · simp [toggleAt, hm]
    · simp [toggleAt, hm, ih]

/-- Claim C1: `addDevice` is an upsert by device id. When an entry with the
incoming id already exists (the history splits as `pre ++ e :: post` with the
first match at `e`), that entry gets its `connectionCount` incremented, its
`lastConnected` and `deviceInfo` refreshed, and it stays in place, the rest
of the list untouched; when no entry matches, a new entry with count 1 is
inserted at the front. Adding id "A" twice to an empty history leaves one
entry with `connectionCount` 2. -/
theorem addDevice_upsert (st : HistoryState) (info : DeviceInfo) (now : Nat)
    (hlen : st.history.length ≤ MAX_HISTORY_SIZE) :
    (∀ pre e post,
      st.history = pre ++ e :: post →
      (∀ x ∈ pre, x.deviceInfo.id ≠ info.id) →
      e.deviceInfo.id = info.id →
      (addDevice info now st).history =
        pre ++ { e with lastConnected := now,
                        connectionCount := e.connectionCount + 1,
                        deviceInfo := info } :: post)
    ∧ ((∀ x ∈ st.history, x.deviceInfo.id ≠ info.id) →
      (addDevice info now st).history =
        (⟨info, false, 1, now⟩ :: st.history).take MAX_HISTORY_SIZE)
    ∧ ((addDevice ⟨strA, strA, 1⟩ 1
          (addDevice ⟨strA, strA, 0⟩ 0 emptyState)).history.length = 1
      ∧ (addDevice ⟨strA, strA, 1⟩ 1
          (addDevice ⟨strA, strA, 0⟩ 0 emptyState)).history.map
            (fun e => e.connectionCount) = [2]) := by
  refine ⟨?_, ?_, by decide, by decide⟩
  · intro pre e post hsplit hpre he
    have hany : st.history.any (fun x => x.deviceInfo.id = info.id) = true := by
      rw [hsplit, List.any_append]
      simp [he]
    simp only [addDevice, hany, if_true]
    rw [hsplit, updateExisting_append info now pre e post hpre he]
    apply List.take_of_length_le
    have hl := hlen
    rw [hsplit] at hl
    simpa using hl
  · intro hall
    have hany : st.history.any (fun x => x.deviceInfo.id = info.id) = false := by
      simp only [List.any_eq_false, decide_eq_true_eq]
      exact hall
    simp [addDevice, hany]

theorem addDevice_upsert_witness :
    (addDevice ⟨strA, strA, 9⟩ 9 twoEntryBA).history =
      [⟨⟨strB, strB, 0⟩, false, 1, 0⟩, ⟨⟨strA, strA, 9⟩, true, 3, 9⟩] := by
  have h := addDevice_upsert twoEntryBA ⟨strA, strA, 9⟩ 9 (by decide)
  have h1 := h.1 [⟨⟨strB, strB, 0⟩, false, 1, 0⟩] ⟨⟨strA, strA, 0⟩, true, 2, 3⟩ []
    (by decide) (by decide) (by decide)
  simpa using h1

set_option maxRecDepth 100000 in
/-- Claim C2: every `addDevice` call leaves at most `MAX_HISTORY_SIZE = 50`
entries (the cap is applied after every insert), and the concrete scenario of
51 distinct-id additions from empty ends with exactly 50 entries, the
first-added id evicted. -/
theorem addDevice_capacity (info : DeviceInfo) (now : Nat) (st : HistoryState) :
    (addDevice info now st).history.length ≤ MAX_HISTORY_SIZE
    ∧ scenario51.history.length = 50
    ∧ (toString 0) ∉ idsOf scenario51.history := by
  refine ⟨?_, by decide, by decide⟩
  simp only [addDevice, List.length_take, MAX_HISTORY_SIZE]
  omega

/-- Claim C8: on an id present in the history, `toggleFavorite` is an
involution — two successive calls restore the history exactly (the toggled
entry's flag returns to its original value and nothing else ever moved). -/
theorem toggleFavorite_involutive (st : HistoryState) (id : String)
    (h : ∃ e ∈ st.history, e.deviceInfo.id = id) :
    (toggleFavorite id (toggleFavorite id st)).history = st.history := by
  have hmem : id ∈ idsOf st.history := by
    rcases h with ⟨e, he, hid⟩
    simp only [idsOf, List.mem_map]
    exact ⟨e, he, hid⟩
  have hany : st.history.any (fun e => e.deviceInfo.id = id) = true :=
    (any_id_iff _ _).mpr hmem
  have hany2 : (toggleAt id st.history).any (fun e => e.deviceInfo.id = id)
      = true := by
    rw [any_id_iff, idsOf_toggleAt]
    exact hmem
  simp only [toggleFavorite, hany, if_true, hany2, toggleAt_toggleAt]

theorem toggleFavorite_involutive_witness :
    (toggleFavorite strA (toggleFavorite strA oneEntryA)).history =
      [⟨⟨strA, strA, 0⟩, false, 1, 0⟩] := by
  exact toggleFavorite_involutive oneEntryA strA
    ⟨⟨⟨strA, strA, 0⟩, false, 1, 0⟩, by decide, by decide⟩

/-- Claim C10: on an id matching no stored entry, `toggleFavorite` is a
complete no-op — same history, no storage write, no emission — whereas
`removeDevice` on such an id still rewrites storage and re-emits the (equal)
list. -/
theorem toggleFavorite_absent_frame (st : HistoryState) (id : String)
    (h : ∀ e ∈ st.history, e.deviceInfo.id ≠ id) :
    toggleFavorite id st = st
    ∧ (removeDevice id st).history = st.history
    ∧ (removeDevice id st).saves = st.history :: st.saves
    ∧ (removeDevice id st).emits = st.history :: st.emits := by
  have hany : st.history.any (fun e => e.deviceInfo.id = id) = false := by
    simp only [List.any_eq_false, decide_eq_true_eq]
    exact h
  have hfilter : st.history.filter (fun e => e.deviceInfo.id ≠ id)
      = st.history := by
    rw [List.filter_eq_self]
    intro a ha
    simpa using h a ha
  refine ⟨?_, ?_, ?_, ?_⟩ <;>
    simp [toggleFavorite, removeDevice, hany, hfilter] <;> exact h

theorem toggleFavorite_absent_frame_witness :
    toggleFavorite strZ oneEntryA = oneEntryA := by
  exact (toggleFavorite_absent_frame oneEntryA strZ (by decide)).1

theorem recentLe_trans (a b c : DeviceHistoryEntry) (h1 : recentLe a b)
    (h2 : recentLe b c) : recentLe a c := by
  simp only [recentLe, decide_eq_true_eq] at *
  omega

theorem recentLe_total (a b : DeviceHistoryEntry) : recentLe a b || recentLe b a := by
  simp only [recentLe, Bool.or_eq_true, decide_eq_true_eq]
  omega

theorem sortedHistory_pairwise (st : HistoryState) :
    (st.history.mergeSort recentLe).Pairwise
      (fun a b => b.lastConnected ≤ a.lastConnected) := by
  have hs := List.sorted_mergeSort recentLe_trans recentLe_total st.history
  exact hs.imp (fun hab => by simpa [recentLe] using hab)

/-- Claim C6: `getRecentDevices(limit)` returns entries sorted by
`lastConnected` descending, of length at most `min limit (history size)`. -/
theorem getRecentDevices_sorted (limit : Nat) (st : HistoryState) :
    List.Sorted (fun a b => b.lastConnected ≤ a.lastConnected)
      (getRecentDevices limit st).1
    ∧ (getRecentDevices limit st).1.length ≤ min limit st.history.length := by
  constructor
  · show List.Pairwise _ _
    exact (sortedHistory_pairwise st).sublist
      (List.take_sublist limit (st.history.mergeSort recentLe))
  · simp [getRecentDevices, List.length_take]

/-- Claim C7: `getRecentDevices` mutates the live stored list: after the
call the service's stored history is the lastConnected-descending reordering
of the prior entries (same entries, sorted), while nothing is saved or
emitted; on the concrete two-entry out-of-order state this changes the
stored list even when the requested limit is 0, so the read has an
observable side effect on the cache. -/
theorem getRecentDevices_mutates_in_place (limit : Nat) (st : HistoryState) :
    ((getRecentDevices limit st).2.history).Perm st.history
    ∧ List.Sorted (fun a b => b.lastConnected ≤ a.lastConnected)
        (getRecentDevices limit st).2.history
    ∧ (getRecentDevices limit st).2.saves = st.saves
    ∧ (getRecentDevices limit st).2.emits = st.emits
    ∧ (getRecentDevices 0 demoUnsorted).2.history ≠ demoUnsorted.history := by
  refine ⟨List.mergeSort_perm st.history recentLe, sortedHistory_pairwise st,
    rfl, rfl, ?_⟩
  intro heq
  have hs : ((getRecentDevices 0 demoUnsorted).2.history).Pairwise
      (fun a b => b.lastConnected ≤ a.lastConnected) :=
    sortedHistory_pairwise demoUnsorted
  rw [heq] at hs
  simp [demoUnsorted, List.pairwise_cons] at hs

theorem length_toggleAt (id : String) (h : List DeviceHistoryEntry) :
    (toggleAt id h).length = h.length := by
  induction h with
  | nil => rfl
  | cons e rest ih => simp only [toggleAt]; split <;> simp [ih]

theorem idsOf_take (n : Nat) (h : List DeviceHistoryEntry) :
    idsOf (h.take n) = (idsOf h).take n := by
  simp [idsOf, List.map_take]

theorem idsOf_filter (id : String) (h : List DeviceHistoryEntry) :
    idsOf (h.filter (fun e => e.deviceInfo.id ≠ id)) =
      (idsOf h).filter (fun x => x ≠ id) := by
  induction h with
  | nil => rfl
  | cons e rest ih =>
    rw [List.filter_cons, idsOf_cons, List.filter_cons]
    split_ifs with hcond
    · rw [idsOf_cons, ih]
    · exact ih

theorem specStep_nodup (ids : List String) (op : HistoryOp) (h : ids.Nodup) :
    (specStep ids op).Nodup := by
  cases op with
  | add info now =>
    simp only [specStep]
    split
    · exact h
    · rename_i hnot
      exact List.Nodup.sublist (List.take_sublist _ _)
        (List.nodup_cons.mpr ⟨hnot, h⟩)
  | toggle id => exact h
  | remove id => exact h.filter _
  | clear => exact List.nodup_nil

theorem applyOp_sim (st : HistoryState) (op : HistoryOp)
    (hlen : st.history.length ≤ MAX_HISTORY_SIZE) :
    idsOf (applyOp st op).history = specStep (idsOf st.history) op
    ∧ (applyOp st op).history.length ≤ MAX_HISTORY_SIZE := by
  cases op with
  | add info now =>
    constructor
    · by_cases hmem : info.id ∈ idsOf st.history
      · have hany := (any_id_iff _ _).mpr hmem
        simp only [applyOp, addDevice, hany, if_true, specStep, hmem]
        rw [idsOf_take, idsOf_updateExisting, List.take_of_length_le]
        simpa [idsOf] using hlen
      · have hany : st.history.any (fun e => e.deviceInfo.id = info.id) = false := by
          simp only [List.any_eq_false, decide_eq_true_eq]
          intro e he heq
          exact hmem (List.mem_map.mpr ⟨e, he, heq⟩)
        simp only [applyOp, addDevice, hany, specStep, hmem]
        simp [idsOf_take]
    · simp only [applyOp, addDevice]
      simp [MAX_HISTORY_SIZE, List.length_take]
  | toggle id =>
    simp only [applyOp, toggleFavorite, specStep]
    split
    · simp [idsOf_toggleAt, length_toggleAt, hlen]
    · exact ⟨rfl, hlen⟩
  | remove id =>
    refine ⟨idsOf_filter id st.history, ?_⟩
    exact le_trans (List.length_filter_le _ _) hlen
  | clear =>
    simp [applyOp, clearHistory, specStep, idsOf]

theorem runOps_sim (ops : List HistoryOp) :
    ∀ st : HistoryState, st.history.length ≤ MAX_HISTORY_SIZE →
      idsOf (ops.foldl applyOp st).history = ops.foldl specStep (idsOf st.history)
      ∧ (ops.foldl applyOp st).history.length ≤ MAX_HISTORY_SIZE := by
  induction ops with
  | nil => exact fun st hlen => ⟨rfl, hlen⟩
  | cons op rest ih =>
    intro st hlen
    have h1 := applyOp_sim st op hlen
    have h2 := ih (applyOp st op) h1.2
    simp only [List.foldl_cons]
    rw [h2.1, h1.1]
    exact ⟨rfl, h2.2⟩

theorem specFold_nodup (ops : List HistoryOp) :
    ∀ ids : List String, ids.Nodup → (ops.foldl specStep ids).Nodup := by
  induction ops with
  | nil => exact fun ids h => h
  | cons op rest ih =>
    intro ids h
    exact ih (specStep ids op) (specStep_nodup ids op h)

/-- Claim C3: after any sequence of `addDevice` / `toggleFavorite` /
`removeDevice` / `clearHistory` calls from an empty history, the history has
at most one entry per device id, holds at most the capacity cap of entries,
and its id order refines the specification-level order `specIdOrder` —
most-recently-first-inserted ids first, with no re-promotion on re-add,
truncated at the cap. -/
theorem runOps_invariant (ops : List HistoryOp) :
    (idsOf (runOps ops).history).Nodup
    ∧ (runOps ops).history.length ≤ MAX_HISTORY_SIZE
    ∧ idsOf (runOps ops).history = specIdOrder ops := by
  unfold runOps specIdOrder
  have h := runOps_sim ops emptyState (by simp [emptyState])
  refine ⟨?_, h.2, ?_⟩
  · rw [h.1]
    exact specFold_nodup ops _ (by simp [emptyState, idsOf])
  · rw [h.1]
    rfl

end DeviceHistoryService

namespace BluetoothService

/-- Claim C9: `disconnect()` with no live GATT session (no server handle, or
a handle whose `connected` flag is down) is total — the model is a plain
function, so no exception path exists — and synchronously runs the very same
`onDisconnected` cleanup the disconnect observer runs, ending with the
connected flag false, the services list empty, and both handles released. -/
theorem disconnect_without_session (st : BTState)
    (h : ∀ srv, st.server = some srv → srv.connected = false) :
    disconnect st = onDisconnected st
    ∧ (disconnect st).connectionStatus = false
    ∧ (disconnect st).services = []
    ∧ (disconnect st).server = none
    ∧ (disconnect st).currentDevice = none := by
  have hd : disconnect st = onDisconnected st := by
    unfold disconnect
    cases hs : st.server with
    | none => rfl
    | some srv =>
      have hc := h srv hs
      simp [hc]
  exact ⟨hd, by rw [hd]; rfl, by rw [hd]; rfl, by rw [hd]; rfl, by rw [hd]; rfl⟩

theorem disconnect_without_session_witness :
    disconnect ⟨true, [⟨strSvc⟩], some ⟨false⟩, some strDev⟩ =
      ⟨false, [], none, none⟩ := by
  exact (disconnect_without_session ⟨true, [⟨strSvc⟩], some ⟨false⟩, some strDev⟩
    (by intro srv hs; cases hs; rfl)).1

end BluetoothService

namespace DashboardComponent

theorem aux_bad_mid : ∀ (bs : List Nat) (needed cp lower upper : Nat),
    0x80 ≤ lower →
    0x80 ≤ (cp * 64 + (lower - 0x80)) * 64 ^ needed →
    ∃ x ∈ utf8DecodeAux (needed + 1) cp lower upper bs,
      ¬(0x20 ≤ x ∧ x ≤ 0x7E) := by
  intro bs
  induction bs with
  | nil =>
    intro needed cp lower upper hlow hinv
    exact ⟨0xFFFD, by simp [utf8DecodeAux], by decide⟩
  | cons b rest ih =>
    intro needed cp lower upper hlow hinv
    simp only [utf8DecodeAux]
    by_cases hbnd : lower ≤ b ∧ b ≤ upper
    · rw [if_pos hbnd]
      by_cases hn : needed = 0
      · subst hn
        rw [if_pos rfl]
        refine ⟨cp * 64 + (b - 0x80), List.mem_cons_self _ _, ?_⟩
        rw [pow_zero, Nat.mul_one] at hinv
        omega
      · rw [if_neg hn]
        obtain ⟨m, rfl⟩ : ∃ m, needed = m + 1 := ⟨needed - 1, by omega⟩
        apply ih m (cp * 64 + (b - 0x80)) 0x80 0xBF (by omega)
        calc (0x80 : Nat)
            ≤ (cp * 64 + (lower - 0x80)) * 64 ^ (m + 1) := hinv
          _ = (cp * 64 + (lower - 0x80)) * 64 * 64 ^ m := by rw [pow_succ]; ring
          _ ≤ (cp * 64 + (b - 0x80)) * 64 * 64 ^ m :=
              Nat.mul_le_mul_right _ (Nat.mul_le_mul_right _ (by omega))
          _ = ((cp * 64 + (b - 0x80)) * 64 + (0x80 - 0x80)) * 64 ^ m := by
              norm_num
    · rw [if_neg hbnd]
      exact ⟨0xFFFD, List.mem_cons_self _ _, by decide⟩

theorem aux_printable_initial : ∀ bs : List Nat,
    (∀ x ∈ utf8DecodeAux 0 0 0x80 0xBF bs, 0x20 ≤ x ∧ x ≤ 0x7E) →
    ∀ b ∈ bs, 0x20 ≤ b ∧ b ≤ 0x7E := by
  intro bs
  induction bs with
  | nil =>
    intro h b hb
    simp at hb
  | cons b rest ih =>
    intro h
    simp only [utf8DecodeAux] at h
    by_cases h1 : b ≤ 0x7F
    · rw [if_pos h1] at h
      have hb := h b (List.mem_cons_self _ _)
      intro x hx
      rcases List.mem_cons.mp hx with rfl | hx2
      · exact hb
      · exact ih (fun y hy => h y (List.mem_cons_of_mem _ hy)) x hx2
    · exfalso
      rw [if_neg h1] at h
      by_cases h2 : 0xC2 ≤ b ∧ b ≤ 0xDF
      · rw [if_pos h2] at h
        obtain ⟨x, hx, hbad⟩ := aux_bad_mid rest 0 (b - 0xC0) 0x80 0xBF
          (by omega) (by rw [pow_zero, Nat.mul_one]; omega)
        exact hbad (h x hx)
      · rw [if_neg h2] at h
        by_cases h3 : 0xE0 ≤ b ∧ b ≤ 0xEF
        · rw [if_pos h3] at h
          obtain ⟨x, hx, hbad⟩ := aux_bad_mid rest 1 (b - 0xE0)
            (if b = 0xE0 then 0xA0 else 0x80) (if b = 0xED then 0x9F else 0xBF)
            (by split_ifs <;> omega)
            (by rw [pow_one]; split_ifs <;> omega)
          exact hbad (h x hx)
        · rw [if_neg h3] at h
          by_cases h4 : 0xF0 ≤ b ∧ b ≤ 0xF4
          · rw [if_pos h4] at h
            obtain ⟨x, hx, hbad⟩ := aux_bad_mid rest 2 (b - 0xF0)
              (if b = 0xF0 then 0x90 else 0x80) (if b = 0xF4 then 0x8F else 0xBF)
              (by split_ifs <;> omega)
              (by
                have hp : (64 : Nat) ^ 2 = 4096 := by norm_num
                rw [hp]
                split_ifs <;> omega)
            exact hbad (h x hx)
          · rw [if_neg h4] at h
            exact (by decide : ¬(0x20 ≤ 0xFFFD ∧ (0xFFFD : Nat) ≤ 0x7E))
              (h 0xFFFD (List.mem_cons_self _ _))

theorem utf8Decode_printable_inv (bs : List Nat)
    (h : ∀ cp ∈ utf8Decode bs, 0x20 ≤ cp ∧ cp ≤ 0x7E) :
    ∀ b ∈ bs, 0x20 ≤ b ∧ b ≤ 0x7E :=
  aux_printable_initial bs h

theorem utf8Decode_ascii (bs : List Nat) (h : ∀ b ∈ bs, b ≤ 0x7F) :
    utf8Decode bs = bs := by
  unfold utf8Decode
  induction bs with
  | nil => rfl
  | cons b rest ih =>
    have hb : b ≤ 0x7F := h b (List.mem_cons_self _ _)
    simp only [utf8DecodeAux]
    rw [if_pos hb, ih (fun y hy => h y (List.mem_cons_of_mem _ hy))]

theorem stringToArrayBuffer_ascii (s : List Nat) (h : ∀ c ∈ s, c ≤ 0x7F) :
    stringToArrayBuffer s = s := by
  induction s with
  | nil => rfl
  | cons c rest ih =>
    have hc : c < 0x80 := by
      have := h c (List.mem_cons_self _ _)
      omega
    simp only [stringToArrayBuffer, List.map_cons, List.flatten_cons] at ih ⊢
    rw [utf8EncodeChar, if_pos hc,
      ih (fun y hy => h y (List.mem_cons_of_mem _ hy))]
    rfl

/-- Claim C4: the codec round-trips printable-ASCII text — encoding with
`stringToArrayBuffer` (UTF-8) and decoding with `dataViewToString` returns
the original text exactly, through the printable-text branch (the decoded
text passes the printable check, so the hex fallback is not taken). -/
theorem codec_roundtrip (s : List Nat) (h : ∀ c ∈ s, 0x20 ≤ c ∧ c ≤ 0x7E) :
    dataViewToString (stringToArrayBuffer s) = s
    ∧ (utf8Decode (stringToArrayBuffer s)).all isPrintable = true := by
  have hs : ∀ c ∈ s, c ≤ 0x7F := by
    intro c hc
    have := h c hc
    omega
  have henc : stringToArrayBuffer s = s := stringToArrayBuffer_ascii s hs
  have hdec : utf8Decode s = s := utf8Decode_ascii s hs
  have hall : s.all isPrintable = true := by
    rw [List.all_eq_true]
    intro c hc
    simpa [isPrintable] using h c hc
  rw [henc]
  refine ⟨?_, by rw [hdec]; exact hall⟩
  simp only [dataViewToString]
  rw [hdec, hall]
  simp

theorem codec_roundtrip_witness :
    dataViewToString (stringToArrayBuffer [0x48, 0x69]) = [0x48, 0x69] := by
  exact (codec_roundtrip [0x48, 0x69] (by decide)).1

theorem hexDigit_range (n : Nat) (hn : n < 16) :
    (0x30 ≤ hexDigit n ∧ hexDigit n ≤ 0x39)
    ∨ (0x61 ≤ hexDigit n ∧ hexDigit n ≤ 0x66) := by
  unfold hexDigit
  split_ifs <;> omega

theorem byteToHex_digits (b : Nat) (hb : b < 256) :
    (byteToHex b).length = 2
    ∧ ∀ d ∈ byteToHex b, (0x30 ≤ d ∧ d ≤ 0x39) ∨ (0x61 ≤ d ∧ d ≤ 0x66) := by
  refine ⟨rfl, ?_⟩
  intro d hd
  rcases List.mem_cons.mp hd with rfl | hd2
  · exact hexDigit_range _ (by omega)
  · rcases List.mem_cons.mp hd2 with rfl | hd3
    · exact hexDigit_range _ (by omega)
    · simp at hd3

/-- Claim C5: on a byte buffer containing any byte outside printable ASCII
(0x20 to 0x7E), `dataViewToString` takes the hex fallback: it returns the
space-separated rendering of the bytes, each as exactly two lowercase hex
digit characters, with byte 0x00 rendered as the two characters "00". -/
theorem codec_hex_fallback (bytes : List Nat) (hrange : ∀ b ∈ bytes, b < 256)
    (hbad : ∃ b ∈ bytes, ¬(0x20 ≤ b ∧ b ≤ 0x7E)) :
    dataViewToString bytes = List.intercalate [0x20] (bytes.map byteToHex)
    ∧ (∀ b ∈ bytes, (byteToHex b).length = 2
        ∧ ∀ d ∈ byteToHex b, (0x30 ≤ d ∧ d ≤ 0x39) ∨ (0x61 ≤ d ∧ d ≤ 0x66))
    ∧ byteToHex 0 = [0x30, 0x30] := by
  have hfall : (utf8Decode bytes).all isPrintable = false := by
    rcases hbad with ⟨b, hbm, hbn⟩
    by_contra hc
    have hall : (utf8Decode bytes).all isPrintable = true := by
      cases hx : (utf8Decode bytes).all isPrintable
      · exact absurd hx hc
      · rfl
    have hpr : ∀ cp ∈ utf8Decode bytes, 0x20 ≤ cp ∧ cp ≤ 0x7E := by
      intro cp hcp
      have := List.all_eq_true.mp hall cp hcp
      simpa [isPrintable] using this
    exact hbn (utf8Decode_printable_inv bytes hpr b hbm)
  refine ⟨?_, fun b hb => byteToHex_digits b (hrange b hb), by decide⟩
  simp only [dataViewToString]
  rw [hfall]
  simp

theorem codec_hex_fallback_witness :
    dataViewToString [0] = [0x30, 0x30] := by
  have h := codec_hex_fallback [0] (by decide) ⟨0, by decide, by decide⟩
  rw [h.1]
  decide

end DashboardComponent

end BleApp
